import Mathlib

/-!
Shallow embedding of the QR decode pipeline core
(`src/lib/image-processing.ts`, `src/lib/detection.ts`,
`src/lib/extraction.ts`, `src/lib/decoder.ts`).

Modelling conventions:
* JavaScript numbers are modelled as exact rationals (`ℚ`); integer-valued
  quantities (pixel indices, thresholds, loop counters, bit values) as `ℕ`/`ℤ`.
  All the arithmetic appearing in the modelled code paths stays far below
  2^31, so JavaScript float/32-bit-shift behaviour agrees with the exact model.
* `Math.sqrt` is kept abstract as a parameter `sq : ℚ → ℚ`: every theorem
  about geometry quantifies over it, so the results hold for any realisation.
* JavaScript arrays are Lean lists; `arr[i]` on a missing index yields the
  code's `?? 0` / `?.` / `|| false` fallback, modelled with `List.getD`.
* `while`/`for` loops that advance an index are modelled structurally with an
  explicit iteration budget (`fuel`) that, at every call site, dominates the
  number of iterations the JavaScript loop can perform, so the guard, not
  the budget, always terminates the loop.
-/

/-- Math.round on a rational: JavaScript rounds half toward positive infinity. -/
def roundJS (q : ℚ) : ℤ := ⌊q + 1 / 2⌋

/-! ## image-processing.ts -/

/-- State of a `QRImageData` object: dimensions, the precomputed grayscale
array, and the mutable `_threshold` field. -/
structure QRImageData where
  width : ℕ
  height : ℕ
  grayscale : List ℕ
  threshold : ℤ
deriving DecidableEq

/-- Lookup `this.grayscale[y * this.width + x] ?? 0` of `getPixel`:
a flattened index outside `[0, grayscale.length)` reads as 0. -/
def QRImageData.getPixel (img : QRImageData) (x y : ℤ) : ℕ :=
  let idx := y * img.width + x
  if 0 ≤ idx ∧ idx < img.grayscale.length then img.grayscale.getD idx.toNat 0 else 0

/-- Method `isBlack(x, y, threshold)` with the optional threshold supplied. -/
def QRImageData.isBlack (img : QRImageData) (x y : ℤ) (t : ℤ) : Bool :=
  img.getPixel x y < t

/-- Method `isBlack(x, y)` with the optional threshold omitted: the current
`_threshold` field is used. -/
def QRImageData.isBlackDefault (img : QRImageData) (x y : ℤ) : Bool :=
  img.isBlack x y img.threshold

/-- Sum of the first `n` histogram bins: the value of the accumulator `wB`
after the loop of `computeOtsuThreshold` has consumed bins `0 .. n-1`. -/
def histPrefixW (hist : ℕ → ℕ) (n : ℕ) : ℕ := ((List.range n).map hist).sum

/-- Weighted sum `Σ i·hist i` over the first `n` bins: the accumulator `sumB`
(and, at `n = 256`, the precomputed `sum`). -/
def histPrefixS (hist : ℕ → ℕ) (n : ℕ) : ℕ :=
  ((List.range n).map (fun j => j * hist j)).sum

/-- Between-class variance computed by one iteration of the Otsu loop from
the accumulators: `wB · wF · (mB − mF)²` with `mB = sumB / wB` and
`mF = (sum − sumB) / wF`. -/
def loopVar (sum sumB wB wF : ℕ) : ℚ :=
  let mB : ℚ := (sumB : ℚ) / (wB : ℚ)
  let mF : ℚ := ((sum : ℚ) - (sumB : ℚ)) / (wF : ℚ)
  (wB : ℚ) * (wF : ℚ) * ((mB - mF) * (mB - mF))

/-- Loop body of `computeOtsuThreshold`.  One call is one iteration at bin
`i`; `fuel` starts at 256 and dominates the remaining 256 - i iterations, so
the structural recursion reproduces the `for (let i = 0; i < 256; i++)` loop
with its `continue` (first branch) and `break` (returning `thr`) exactly. -/
def otsuGo (hist : ℕ → ℕ) (total sum : ℕ) :
    ℕ → ℕ → ℕ → ℕ → ℚ → ℕ → ℕ
  | 0, _, _, _, _, thr => thr
  | fuel + 1, i, sumB, wB, maxVar, thr =>
    let wB' := wB + hist i
    if wB' = 0 then otsuGo hist total sum fuel (i + 1) sumB wB' maxVar thr
    else
      let wF := total - wB'
      if wF = 0 then thr
      else
        let sumB' := sumB + i * hist i
        let v : ℚ := loopVar sum sumB' wB' wF
        if maxVar < v then otsuGo hist total sum fuel (i + 1) sumB' wB' v i
        else otsuGo hist total sum fuel (i + 1) sumB' wB' maxVar thr

/-- Method `computeOtsuThreshold` on the grayscale array.  The histogram array
is modelled by its content, `histogram[v] = number of pixels of luminance v`,
and the loop starts from `sumB = 0`, `wB = 0`, `maxVariance = 0`,
`threshold = 127`. -/
def computeOtsuThreshold (grayscale : List ℕ) : ℕ :=
  let hist : ℕ → ℕ := fun v => grayscale.count v
  let total := grayscale.length
  let sum := histPrefixS hist 256
  otsuGo hist total sum 256 0 0 0 0 127

/-- Luminance of one RGBA pixel: `Math.round(0.299 r + 0.587 g + 0.114 b)`,
written with exact rational coefficients. -/
def luminance (r g b : ℕ) : ℕ :=
  (roundJS ((299 * r + 587 * g + 114 * b : ℚ) / 1000)).toNat

/-- Constructor of `QRImageData`: precompute the grayscale array from the RGBA
byte sequence (missing bytes read as 0), then set `_threshold` by Otsu's
method. -/
def mkQRImageData (width height : ℕ) (data : List ℕ) : QRImageData :=
  let grayscale := (List.range (width * height)).map fun i =>
    luminance (data.getD (4 * i) 0) (data.getD (4 * i + 1) 0) (data.getD (4 * i + 2) 0)
  { width := width, height := height, grayscale := grayscale,
    threshold := (computeOtsuThreshold grayscale : ℤ) }

/-! ## detection.ts (the two value classes used by the sampler) -/

/-- Class `Point`: real-valued coordinates. -/
structure Point where
  x : ℚ
  y : ℚ
deriving DecidableEq, Inhabited

/-- Method `distanceTo`: `Math.sqrt((dx) ** 2 + (dy) ** 2)`, with `Math.sqrt`
abstracted as `sq`. -/
def Point.distanceTo (sq : ℚ → ℚ) (p other : Point) : ℚ :=
  sq ((p.x - other.x) ^ 2 + (p.y - other.y) ^ 2)

/-- Class `FinderPattern`: a detected anchor, `{center, size}`. -/
structure FinderPattern where
  center : Point
  size : ℚ
deriving DecidableEq, Inhabited

/-! ## extraction.ts -/

/-- Class `BitMatrix`: a `size` field and the `bits` row-major boolean grid. -/
structure BitMatrix where
  size : ℕ
  bits : List (List Bool)
deriving DecidableEq

/-- Constructor `new BitMatrix(size)`: a size × size grid of `false`. -/
def BitMatrix.new (size : ℕ) : BitMatrix :=
  { size := size, bits := List.replicate size (List.replicate size false) }

/-- Method `get`: `this.bits[y]?.[x] || false` for integer indices — any
out-of-range index yields `false`. -/
def BitMatrix.get (m : BitMatrix) (x y : ℤ) : Bool :=
  if 0 ≤ x ∧ 0 ≤ y then (m.bits.getD y.toNat []).getD x.toNat false else false

/-- Row update of `set`: `row[x] = value` for an integer index.  A negative
index is a plain property write, invisible to integer-index reads; an index
at or beyond the row length is dropped (the sampler, the only writer, only
writes inside the allocated grid). -/
def BitMatrix.setRow (row : List Bool) (x : ℤ) (v : Bool) : List Bool :=
  if 0 ≤ x then row.set x.toNat v else row

/-- Method `set`: `if (this.bits[y]) this.bits[y][x] = value` — nothing
happens when row `y` does not exist. -/
def BitMatrix.set (m : BitMatrix) (x y : ℤ) (v : Bool) : BitMatrix :=
  if 0 ≤ y ∧ y.toNat < m.bits.length then
    { m with bits := m.bits.set y.toNat (BitMatrix.setRow (m.bits.getD y.toNat []) x v) }
  else m

/-- Ascending key for `orderPatterns`' first comparator `a.center.y - b.center.y`. -/
def byCenterY (a b : FinderPattern) : Prop := a.center.y ≤ b.center.y

/-- Ascending key for `orderPatterns`' second comparator `a.center.x - b.center.x`. -/
def byCenterX (a b : FinderPattern) : Prop := a.center.x ≤ b.center.x

instance : DecidableRel byCenterY := fun a b =>
  inferInstanceAs (Decidable (a.center.y ≤ b.center.y))

instance : DecidableRel byCenterX := fun a b =>
  inferInstanceAs (Decidable (a.center.x ≤ b.center.x))

/-- Method `orderPatterns`: sort by center.y ascending (stable, like
`Array.prototype.sort`); the first is top-left; sort the rest by center.x
ascending; return (topLeft, others[1], others[0]). -/
def orderPatterns (ps : List FinderPattern) :
    FinderPattern × FinderPattern × FinderPattern :=
  let sorted := List.insertionSort byCenterY ps
  let topLeft := sorted.getD 0 default
  let others := List.insertionSort byCenterX sorted.tail
  (topLeft, others.getD 1 default, others.getD 0 default)

/-- Method `estimateModuleSize`: mean of the three pattern sizes. -/
def estimateModuleSize (tl tr bl : FinderPattern) : ℚ :=
  (tl.size + tr.size + bl.size) / 3

/-- Method `computeDimension`: average the two anchor distances, divide by the
module size, round, add 7, then force the result to 4k+1 unless
`dimension % 4 === 1` already holds (JavaScript `%` truncates, `Int.tmod`). -/
def computeDimension (sq : ℚ → ℚ) (tl tr bl : FinderPattern) (moduleSize : ℚ) : ℤ :=
  let tlToTR := tl.center.distanceTo sq tr.center
  let tlToBL := tl.center.distanceTo sq bl.center
  let avgDistance := (tlToTR + tlToBL) / 2
  let dimension := roundJS (avgDistance / moduleSize) + 7
  if dimension.tmod 4 = 1 then dimension
  else roundJS ((dimension : ℚ) / 4) * 4 + 1

/-- Body of the sampling loop of `sample` for one grid cell (x, y). -/
def sampleCell (img : QRImageData) (tl : FinderPattern) (ms : ℚ)
    (m : BitMatrix) (x y : ℕ) : BitMatrix :=
  let px := tl.center.x + (x : ℚ) * ms
  let py := tl.center.y + (y : ℚ) * ms
  if 0 ≤ px ∧ px < (img.width : ℚ) ∧ 0 ≤ py ∧ py < (img.height : ℚ) then
    m.set (x : ℤ) (y : ℤ) (img.isBlackDefault (roundJS px) (roundJS py))
  else m

/-- Double loop of `sample` over the fresh `new BitMatrix(dimension)`. -/
def sampleLoop (img : QRImageData) (tl : FinderPattern) (ms : ℚ) (dim : ℕ) :
    BitMatrix :=
  (List.range dim).foldl
    (fun m y => (List.range dim).foldl (fun m x => sampleCell img tl ms m x y) m)
    (BitMatrix.new dim)

/-- Matrix built by `QRSampler.sample` once the pattern-count guard passed. -/
def sampleResult (sq : ℚ → ℚ) (img : QRImageData) (ps : List FinderPattern) :
    BitMatrix :=
  let tl := (orderPatterns ps).1
  let tr := (orderPatterns ps).2.1
  let bl := (orderPatterns ps).2.2
  let ms := estimateModuleSize tl tr bl
  sampleLoop img tl ms (computeDimension sq tl tr bl ms).toNat

/-- Method `QRSampler.sample`: `throw new Error('Need 3 finder patterns')`
when fewer than 3 patterns are supplied, otherwise the sampled matrix. -/
def Sampler.sample (sq : ℚ → ℚ) (img : QRImageData) (ps : List FinderPattern) :
    Except String BitMatrix :=
  if ps.length < 3 then .error "Need 3 finder patterns"
  else .ok (sampleResult sq img ps)

/-! ## decoder.ts -/

/-- Method `QRDataDecoder.isReserved`: the three 9-wide corner
finder/format blocks and the two timing lines.  JavaScript computes
`size - 8` as a possibly negative number; for `size < 8` the comparisons
`y >= size - 8` / `x >= size - 8` are then always true, exactly as the
truncated subtraction `size - 8 = 0` makes them here. -/
def isReserved (x y size : ℕ) : Bool :=
  if x < 9 ∧ y < 9 then true
  else if x < 9 ∧ size - 8 ≤ y then true
  else if size - 8 ≤ x ∧ y < 9 then true
  else if x = 6 ∨ y = 6 then true
  else false

/-- Cells visited by one two-column pass of `readData` at right column `c`:
for every `count`, the row (bottom-up when `up`, else top-down), reading the
right column `c` first, then the left column `c - 1`. -/
def zigzagPair (size c : ℕ) (up : Bool) : List (ℕ × ℕ) :=
  (List.range size).flatMap fun count =>
    let row := if up then size - 1 - count else count
    [(c, row), (c - 1, row)]

/-- Column loop of `readData` as coordinates: starting column `size - 1`,
skip column 6 (`if (col === 6) col--`), step left by 2, flip the vertical
direction after each pass, stop when the column reaches 0.  `fuel` dominates
the current column, which strictly decreases. -/
def zigzagGo (size : ℕ) : ℕ → ℕ → Bool → List (ℕ × ℕ)
  | 0, _, _ => []
  | fuel + 1, col, up =>
    if col = 0 then []
    else
      let c := if col = 6 then 5 else col
      zigzagPair size c up ++ zigzagGo size fuel (c - 2) (!up)

/-- Complete zigzag visitation order of `readData` over a `size` × `size`
matrix, before the reserved-region filter. -/
def zigzag (size : ℕ) : List (ℕ × ℕ) := zigzagGo size size (size - 1) true

/-- Method `QRDataDecoder.readData` (the unused `_version` argument is
dropped): walk the zigzag and push `matrix.get(x, row)` for every
non-reserved cell. -/
def readDataGo (m : BitMatrix) : ℕ → ℕ → Bool → List Bool
  | 0, _, _ => []
  | fuel + 1, col, up =>
    if col = 0 then []
    else
      let c := if col = 6 then 5 else col
      ((List.range m.size).flatMap fun count =>
        let row := if up then m.size - 1 - count else count
        ([(c, row), (c - 1, row)] : List (ℕ × ℕ)).filterMap fun p =>
          if isReserved p.1 p.2 m.size then none else some (m.get (p.1 : ℤ) (p.2 : ℤ)))
      ++ readDataGo m fuel (c - 2) (!up)

/-- Raw bitstream extracted by `readData`. -/
def readData (m : BitMatrix) : List Bool :=
  readDataGo m m.size (m.size - 1) true

/-- Method `bitsToInt`: big-endian accumulation `result = (result << 1) | bit`.
Every slice the decoder converts is at most 11 bits, far below the 32-bit
range where the JavaScript shift would wrap. -/
def bitsToInt (bits : List Bool) : ℕ :=
  bits.foldl (fun result bit => 2 * result + (if bit then 1 else 0)) 0

/-- Decimal digits of `value.toString()` for a natural number, most
significant first.  `fuel` dominates the digit count (`n + 1` always does). -/
def natToDigitsGo : ℕ → ℕ → List Char
  | 0, _ => []
  | fuel + 1, n =>
    if n < 10 then [Char.ofNat (48 + n)]
    else natToDigitsGo fuel (n / 10) ++ [Char.ofNat (48 + n % 10)]

/-- Decimal rendering `value.toString()` of a natural number. -/
def natToDigits (n : ℕ) : List Char := natToDigitsGo (n + 1) n

/-- String method `padStart(n, "0")`: left-pad with zeros up to length `n`
(no change when already at least that long). -/
def padStart (n : ℕ) (s : List Char) : List Char :=
  List.replicate (n - s.length) '0' ++ s

/-- Loop of `decodeNumeric`: digit index `i` steps by 3 while `i < length`;
each group of `count = min(3, length - i)` digits reads the slice
`bits.slice(i*3, i*3 + count*3 + (count-1))`, renders it in decimal and
left-pads to `count` digits.  `fuel = length` dominates the iteration count. -/
def decodeNumericGo (bits : List Bool) (length : ℕ) : ℕ → ℕ → List Char
  | 0, _ => []
  | fuel + 1, i =>
    if i < length then
      let count := min 3 (length - i)
      let value := bitsToInt ((bits.drop (i * 3)).take (count * 3 + (count - 1)))
      padStart count (natToDigits value) ++ decodeNumericGo bits length fuel (i + 3)
    else []

/-- Method `decodeNumeric`. -/
def decodeNumeric (bits : List Bool) (length : ℕ) : List Char :=
  decodeNumericGo bits length length 0

/-- Alphanumeric table `'0123456789ABCDEFGHIJKLMNOPQRSTUVWXYZ $%*+-./:'`. -/
def charsetList : List Char := "0123456789ABCDEFGHIJKLMNOPQRSTUVWXYZ $%*+-./:".toList

/-- Lookup `charset[i] ?? ''`: one character, or nothing past the table end. -/
def charAt (i : ℕ) : List Char :=
  match charsetList[i]? with
  | some c => [c]
  | none => []

/-- Loop of `decodeAlphanumeric`: index `i` steps by 2 while `i < length`; a
full pair consumes the 11-bit slice at `i * 11 / 2` split by div/mod 45, a
trailing single character consumes 6 bits.  JavaScript evaluates `i * 11 / 2`
as a float and `slice` truncates it toward zero, which is the `ℕ` division
used here.  `fuel = length` dominates the iteration count. -/
def decodeAlphanumericGo (bits : List Bool) (length : ℕ) : ℕ → ℕ → List Char
  | 0, _ => []
  | fuel + 1, i =>
    if i < length then
      (if i + 1 < length then
        let value := bitsToInt ((bits.drop (i * 11 / 2)).take 11)
        charAt (value / 45) ++ charAt (value % 45)
      else
        let value := bitsToInt ((bits.drop (i * 11 / 2)).take 6)
        charAt value)
      ++ decodeAlphanumericGo bits length fuel (i + 2)
    else []

/-- Method `decodeAlphanumeric`. -/
def decodeAlphanumeric (bits : List Bool) (length : ℕ) : List Char :=
  decodeAlphanumericGo bits length length 0

/-- Byte-mode loop of `decodeData`: read 8-bit groups starting at bit 12
while `i < length` and the slice end `12 + i*8 + 8` still fits in the
bitstream.  `fuel = length` dominates the iteration count. -/
def decodeBytesGo (bits : List Bool) (length : ℕ) : ℕ → ℕ → List ℕ
  | 0, _ => []
  | fuel + 1, i =>
    if i < length ∧ 12 + i * 8 + 8 ≤ bits.length then
      bitsToInt ((bits.drop (12 + i * 8)).take 8) :: decodeBytesGo bits length fuel (i + 1)
    else []

/-- Sentinel string returned for a mode indicator outside {1, 2, 4}. -/
def unsupportedSentinel : List Char := "Unsupported QR mode".toList

/-- Method `decodeData`: empty result when fewer than 8 bits are available;
otherwise dispatch on the 4-bit mode indicator — 4 = byte
(`String.fromCharCode` is `Char.ofNat`, all codes being below 256),
1 = numeric, 2 = alphanumeric, anything else the sentinel. -/
def decodeData (bits : List Bool) : List Char :=
  if bits.length < 8 then []
  else
    let mode := bitsToInt (bits.take 4)
    if mode = 4 then
      let length := bitsToInt ((bits.drop 4).take 8)
      (decodeBytesGo bits length length 0).map Char.ofNat
    else if mode = 1 then
      let length := bitsToInt ((bits.drop 4).take 10)
      decodeNumeric (bits.drop 14) length
    else if mode = 2 then
      let length := bitsToInt ((bits.drop 4).take 9)
      decodeAlphanumeric (bits.drop 13) length
    else unsupportedSentinel

/-- Big-endian bit representation of `n` in `w` bits (a helper for writing
concrete bitstreams in theorems; not part of the source). -/
def toBits (n w : ℕ) : List Bool :=
  (List.range w).map fun k => n / 2 ^ (w - 1 - k) % 2 == 1

/-! ## Derived and specification-side definitions used by the theorems -/

/-- Decimal digit characters, the alphabet of `decodeNumeric`. -/
def digitChars : List Char := "0123456789".toList

/-- Group decomposition described by the specification: group `g` covers
digit indices starting at `i = 3g`; there are `⌈C / 3⌉ = (C + 2) / 3` groups;
each group of `c = min 3 (C - i)` digits reads the slice at bit `3·i` of
width `3c + (c - 1)` and renders it zero-padded to width `c`. -/
def numericGroup (bits : List Bool) (length g : ℕ) : List Char :=
  let i := 3 * g
  let c := min 3 (length - i)
  padStart c (natToDigits (bitsToInt ((bits.drop (i * 3)).take (c * 3 + (c - 1)))))

/-- Pixel x-position sampled for grid column `x`:
`topLeft.center.x + x · moduleSize`. -/
def samplePx (tl : FinderPattern) (ms : ℚ) (x : ℕ) : ℚ := tl.center.x + (x : ℚ) * ms

/-- Pixel y-position sampled for grid row `y`:
`topLeft.center.y + y · moduleSize`. -/
def samplePy (tl : FinderPattern) (ms : ℚ) (y : ℕ) : ℚ := tl.center.y + (y : ℚ) * ms

/-- Bounds test of the sampling loop: the computed pixel position lies inside
the image rectangle. -/
def sampleInBounds (img : QRImageData) (tl : FinderPattern) (ms : ℚ) (x y : ℕ) : Prop :=
  0 ≤ samplePx tl ms x ∧ samplePx tl ms x < (img.width : ℚ) ∧
    0 ≤ samplePy tl ms y ∧ samplePy tl ms y < (img.height : ℚ)

instance (img : QRImageData) (tl : FinderPattern) (ms : ℚ) (x y : ℕ) :
    Decidable (sampleInBounds img tl ms x y) :=
  inferInstanceAs (Decidable (_ ∧ _ ∧ _ ∧ _))

/-- Variance the Otsu loop evaluates for a split after bin `t` (the
iteration at `i = t`): zero at the splits the loop skips (`wB = 0`) or
breaks on (`wF = 0`), the accumulator formula elsewhere. -/
def codeVar (hist : ℕ → ℕ) (total sum : ℕ) (t : ℕ) : ℚ :=
  if histPrefixW hist (t + 1) = 0 ∨ total - histPrefixW hist (t + 1) = 0 then 0
  else loopVar sum (histPrefixS hist (t + 1)) (histPrefixW hist (t + 1))
    (total - histPrefixW hist (t + 1))

/-- Between-class variance in the specification's form: `wB`/`wF` are the
black/white population fractions of the split after bin `t`, `mB`/`mF` the
class mean luminances, and the variance is `wB · wF · (mB − mF)²`; a split
with an empty class counts as variance 0. -/
def specVar (hist : ℕ → ℕ) (total sum : ℕ) (t : ℕ) : ℚ :=
  let wB := histPrefixW hist (t + 1)
  if wB = 0 ∨ total - wB = 0 then 0
  else
    let mB : ℚ := (histPrefixS hist (t + 1) : ℚ) / (wB : ℚ)
    let mF : ℚ := ((sum : ℚ) - (histPrefixS hist (t + 1) : ℚ)) / ((total - wB : ℕ) : ℚ)
    ((wB : ℚ) / (total : ℚ)) * (((total - wB : ℕ) : ℚ) / (total : ℚ))
      * ((mB - mF) * (mB - mF))

/-- Running maximum of the loop variances over bins `0 .. i-1`, starting
from the initial `maxVariance = 0`. -/
def runMax (hist : ℕ → ℕ) (total sum : ℕ) (i : ℕ) : ℚ :=
  ((List.range i).map (codeVar hist total sum)).foldr max 0

set_option maxRecDepth 100000

/-! ## C9 — monotonicity of `isBlack` in the threshold -/

/-- C9: `isBlack` is monotonic in the threshold: for every image, every fixed
coordinate (x, y), and thresholds t1 ≤ t2, a pixel black at the lower
threshold t1 is still black at the higher threshold t2. -/
theorem isBlack_monotone (img : QRImageData) (x y : ℤ) (t1 t2 : ℤ)
    (hle : t1 ≤ t2) (hb : img.isBlack x y t1 = true) : img.isBlack x y t2 = true := by
  simp only [QRImageData.isBlack, decide_eq_true_eq] at hb ⊢
  omega

/-- Witness for C9 at a concrete image, pixel and threshold pair. -/
theorem isBlack_monotone_witness :
    (100 : ℤ) ≤ 150 ∧ QRImageData.isBlack ⟨1, 1, [50], 127⟩ 0 0 150 = true :=
  ⟨by decide, isBlack_monotone ⟨1, 1, [50], 127⟩ 0 0 100 150 (by decide) (by decide)⟩

/-! ## C4 — out-of-range pixel queries -/

/-- C4 (counterexample): the coordinate (5, 5) lies outside the 2 × 2 image
rectangle and the threshold 100 lies in [0, 255], yet `isBlack(5, 5, 100)`
returns `true`, not `false`: the out-of-range default luminance 0 is below
any positive threshold, so the pixel is treated as black. -/
theorem isBlack_outside_counterexample :
    ¬((0 : ℤ) ≤ 5 ∧ (5 : ℤ) < (2 : ℕ) ∧ (0 : ℤ) ≤ 5 ∧ (5 : ℤ) < (2 : ℕ)) ∧
    (0 : ℤ) ≤ 100 ∧ (100 : ℤ) ≤ 255 ∧
    QRImageData.isBlack ⟨2, 2, [200, 200, 200, 200], 127⟩ 5 5 100 = true := by
  refine ⟨by decide, by decide, by decide, by decide⟩

/-- C4 (amended): an out-of-range pixel query whose flattened index
`y·width + x` falls outside `[0, grayscale.length)` reads the defined default
luminance 0, so `isBlack` treats the pixel as black for every positive
threshold (and as non-black only when the threshold is at most 0).  A
coordinate outside the rectangle whose flattened index is still in range
instead aliases to the stored pixel at that index. -/
theorem isBlack_outside_default (img : QRImageData) (x y t : ℤ)
    (hout : y * img.width + x < 0 ∨ (img.grayscale.length : ℤ) ≤ y * img.width + x) :
    img.isBlack x y t = true ↔ 0 < t := by
  have hpix : img.getPixel x y = 0 := by
    unfold QRImageData.getPixel
    rw [if_neg]
    omega
  simp [QRImageData.isBlack, hpix]

/-- Witness for the amended C4 at a concrete image and coordinate. -/
theorem isBlack_outside_default_witness :
    QRImageData.isBlack ⟨2, 2, [200, 200, 200, 200], 127⟩ 5 5 100 = true ↔ (0 : ℤ) < 100 :=
  isBlack_outside_default ⟨2, 2, [200, 200, 200, 200], 127⟩ 5 5 100 (by decide)

/-! ## C10 — totality of `BitMatrix` indexing -/

/-- C10: `BitMatrix` indexing is total at the public interface: on a matrix
with the constructor's shape (size rows of size cells), `get` returns `false`
at every integer coordinate outside [0, size) × [0, size), and `set` with a
row index outside [0, size) is a no-op, leaving every cell unchanged. -/
theorem bitMatrix_total (m : BitMatrix) (x y : ℤ) (v : Bool)
    (hlen : m.bits.length = m.size) (hrows : ∀ row ∈ m.bits, row.length = m.size) :
    ((x < 0 ∨ (m.size : ℤ) ≤ x ∨ y < 0 ∨ (m.size : ℤ) ≤ y) → m.get x y = false) ∧
    ((y < 0 ∨ (m.size : ℤ) ≤ y) → m.set x y v = m) ∧
    ((y < 0 ∨ (m.size : ℤ) ≤ y) → ∀ a b : ℤ, (m.set x y v).get a b = m.get a b) := by
  have hset : (y < 0 ∨ (m.size : ℤ) ≤ y) → m.set x y v = m := by
    intro hy
    unfold BitMatrix.set
    rw [if_neg]
    rintro ⟨hy0, hylt⟩
    rw [hlen] at hylt
    omega
  refine ⟨?_, hset, fun hy a b => by rw [hset hy]⟩
  intro hout
  unfold BitMatrix.get
  by_cases hpos : 0 ≤ x ∧ 0 ≤ y
  · rw [if_pos hpos]
    rcases hout with hx | hx | hy | hy
    · omega
    · by_cases hy2 : y.toNat < m.bits.length
      · have hmem : m.bits.getD y.toNat [] ∈ m.bits := by
          rw [List.getD_eq_getElem _ _ hy2]
          exact List.getElem_mem hy2
        apply List.getD_eq_default
        rw [hrows _ hmem]
        omega
      · rw [show m.bits.getD y.toNat [] = [] from List.getD_eq_default _ _ (by omega)]
        rfl
    · omega
    · rw [show m.bits.getD y.toNat [] = [] from
        List.getD_eq_default _ _ (by rw [hlen]; omega)]
      rfl
  · rw [if_neg hpos]

/-- Witness for C10 on a concrete 4 × 4 matrix and out-of-range coordinates. -/
theorem bitMatrix_total_witness :
    (BitMatrix.new 4).get 9 7 = false ∧ (BitMatrix.new 4).set 9 7 true = BitMatrix.new 4 :=
  ⟨(bitMatrix_total (BitMatrix.new 4) 9 7 true (by decide) (by decide)).1 (by decide),
   (bitMatrix_total (BitMatrix.new 4) 9 7 true (by decide) (by decide)).2.1 (by decide)⟩

/-! ## C7 — the finder-pattern count guard of `sample` -/

/-- C7: `QRSampler.sample` raises its decode error exactly when fewer than 3
finder patterns are supplied, and with at least 3 patterns it returns a
`BitMatrix` without raising. -/
theorem sample_pattern_guard (sq : ℚ → ℚ) (img : QRImageData) (ps : List FinderPattern) :
    (Sampler.sample sq img ps = Except.error "Need 3 finder patterns" ↔ ps.length < 3) ∧
    (3 ≤ ps.length → Sampler.sample sq img ps = Except.ok (sampleResult sq img ps)) := by
  unfold Sampler.sample
  by_cases h : ps.length < 3
  · rw [if_pos h]
    exact ⟨by simp [h], fun h3 => absurd h (by omega)⟩
  · rw [if_neg h]
    exact ⟨by simp [h], fun _ => rfl⟩

/-! ## C5 — grid dimension rounding -/

lemma tmod_four_one (d : ℤ) (h : d.tmod 4 = 1) : d % 4 = 1 := by
  have h4 := Int.tdiv_add_tmod d 4
  omega

lemma roundJS_quarter_cancel (d : ℤ) (h : d % 4 = 1) :
    roundJS ((d : ℚ) / 4) * 4 + 1 = d := by
  obtain ⟨k, hk⟩ : ∃ k, d = 4 * k + 1 := ⟨d / 4, by omega⟩
  subst hk
  unfold roundJS
  have harg : ((4 * k + 1 : ℤ) : ℚ) / 4 + 1 / 2 = (k : ℚ) + 3 / 4 := by
    push_cast
    ring
  rw [harg, Int.floor_int_add]
  norm_num
  ring

lemma computeDimension_const (c : ℚ) (tl tr bl : FinderPattern) (ms : ℚ) :
    computeDimension (fun _ => c) tl tr bl ms =
      (if (roundJS (c / ms) + 7).tmod 4 = 1 then roundJS (c / ms) + 7
       else roundJS (((roundJS (c / ms) + 7 : ℤ) : ℚ) / 4) * 4 + 1) := by
  have havg : (c + c) / 2 = c := by ring
  simp only [computeDimension, Point.distanceTo, havg]

/-- C5: the dimension computed by `computeDimension` equals the candidate
`round(avgDistance / moduleSize) + 7` whenever that candidate is congruent to
1 mod 4, and `round(candidate / 4) · 4 + 1` otherwise; the result is always
congruent to 1 mod 4; candidate 25 is kept at 25 and candidate 27 yields 29.
The branch test in the code uses the truncating JavaScript `%`, which agrees
with mathematical congruence on every integer here because the adjustment
formula fixes the candidates where the two differ. -/
theorem computeDimension_spec (sq : ℚ → ℚ) (tl tr bl : FinderPattern) (ms : ℚ)
    (hms : ms ≠ 0) :
    (let cand := roundJS ((tl.center.distanceTo sq tr.center
        + tl.center.distanceTo sq bl.center) / 2 / ms) + 7
     computeDimension sq tl tr bl ms =
        if cand % 4 = 1 then cand else roundJS ((cand : ℚ) / 4) * 4 + 1) ∧
    computeDimension sq tl tr bl ms % 4 = 1 ∧
    (∀ p : FinderPattern, computeDimension (fun _ => 18) p p p 1 = 25) ∧
    (∀ p : FinderPattern, computeDimension (fun _ => 20) p p p 1 = 29) := by
  have h18 : roundJS ((18 : ℚ) / 1) = 18 := by
    norm_num [roundJS]
  have h20 : roundJS ((20 : ℚ) / 1) = 20 := by
    norm_num [roundJS]
  refine ⟨?_, ?_, ?_, ?_⟩
  · show computeDimension sq tl tr bl ms = _
    simp only [computeDimension]
    set d := roundJS ((tl.center.distanceTo sq tr.center
        + tl.center.distanceTo sq bl.center) / 2 / ms) + 7 with hd
    by_cases ht : d.tmod 4 = 1
    · rw [if_pos ht, if_pos (tmod_four_one d ht)]
    · by_cases he : d % 4 = 1
      · rw [if_neg ht, if_pos he, roundJS_quarter_cancel d he]
      · rw [if_neg ht, if_neg he]
  · simp only [computeDimension]
    set d := roundJS ((tl.center.distanceTo sq tr.center
        + tl.center.distanceTo sq bl.center) / 2 / ms) + 7 with hd
    by_cases ht : d.tmod 4 = 1
    · rw [if_pos ht]
      exact tmod_four_one d ht
    · rw [if_neg ht]
      omega
  · intro p
    rw [computeDimension_const, h18]
    rw [if_pos (by decide)]
    decide
  · intro p
    rw [computeDimension_const, h20]
    rw [if_neg (by decide)]
    norm_num [roundJS]

/-- Witness for C5 at a concrete constant square root and module size 1. -/
theorem computeDimension_spec_witness :
    computeDimension (fun _ => (18 : ℚ)) ⟨⟨0, 0⟩, 1⟩ ⟨⟨0, 0⟩, 1⟩ ⟨⟨0, 0⟩, 1⟩ 1 % 4 = 1 :=
  (computeDimension_spec (fun _ => (18 : ℚ)) ⟨⟨0, 0⟩, 1⟩ ⟨⟨0, 0⟩, 1⟩ ⟨⟨0, 0⟩, 1⟩ 1
    (by norm_num)).2.1

/-! ## C2 — mode dispatch of `decodeData` -/


lemma mem_natToDigitsGo (fuel n : ℕ) (c : Char)
    (hc : c ∈ natToDigitsGo fuel n) : c ∈ digitChars := by
  induction fuel generalizing n with
  | zero => simp [natToDigitsGo] at hc
  | succ f ih =>
    unfold natToDigitsGo at hc
    by_cases h : n < 10
    · rw [if_pos h] at hc
      simp only [List.mem_singleton] at hc
      subst hc
      interval_cases n <;> decide
    · rw [if_neg h] at hc
      rcases List.mem_append.mp hc with hc | hc
      · exact ih _ hc
      · simp only [List.mem_singleton] at hc
        subst hc
        have hlt : n % 10 < 10 := Nat.mod_lt _ (by norm_num)
        interval_cases h10 : n % 10 <;> decide

lemma mem_padStart (n : ℕ) (s : List Char) (c : Char) (hc : c ∈ padStart n s) :
    c = '0' ∨ c ∈ s := by
  unfold padStart at hc
  rcases List.mem_append.mp hc with hc | hc
  · exact Or.inl (List.eq_of_mem_replicate hc)
  · exact Or.inr hc

lemma mem_decodeNumericGo (bits : List Bool) (length fuel i : ℕ) (c : Char)
    (hc : c ∈ decodeNumericGo bits length fuel i) : c ∈ digitChars := by
  induction fuel generalizing i with
  | zero => simp [decodeNumericGo] at hc
  | succ f ih =>
    unfold decodeNumericGo at hc
    by_cases h : i < length
    · rw [if_pos h] at hc
      rcases List.mem_append.mp hc with hc | hc
      · rcases mem_padStart _ _ _ hc with hc | hc
        · subst hc
          decide
        · exact mem_natToDigitsGo _ _ _ hc
      · exact ih _ hc
    · rw [if_neg h] at hc
      simp at hc

lemma mem_charAt (i : ℕ) (c : Char) (hc : c ∈ charAt i) : c ∈ charsetList := by
  unfold charAt at hc
  rcases hget : charsetList[i]? with _ | d
  · rw [hget] at hc
    simp at hc
  · rw [hget] at hc
    simp only [List.mem_singleton] at hc
    subst hc
    exact List.get?_mem ((List.get?_eq_getElem? _ _).trans hget)

lemma mem_decodeAlphanumericGo (bits : List Bool) (length fuel i : ℕ) (c : Char)
    (hc : c ∈ decodeAlphanumericGo bits length fuel i) : c ∈ charsetList := by
  induction fuel generalizing i with
  | zero => simp [decodeAlphanumericGo] at hc
  | succ f ih =>
    unfold decodeAlphanumericGo at hc
    by_cases h : i < length
    · rw [if_pos h] at hc
      rcases List.mem_append.mp hc with hc | hc
      · by_cases h2 : i + 1 < length
        · rw [if_pos h2] at hc
          rcases List.mem_append.mp hc with hc | hc
          · exact mem_charAt _ _ hc
          · exact mem_charAt _ _ hc
        · rw [if_neg h2] at hc
          exact mem_charAt _ _ hc
      · exact ih _ hc
    · rw [if_neg h] at hc
      simp at hc

lemma decodeNumeric_ne_sentinel (bits : List Bool) (length : ℕ) :
    decodeNumeric bits length ≠ unsupportedSentinel := by
  intro h
  have hU : 'U' ∈ decodeNumeric bits length := by
    rw [h]
    decide
  have := mem_decodeNumericGo bits length length 0 'U' hU
  revert this
  decide

lemma decodeAlphanumeric_ne_sentinel (bits : List Bool) (length : ℕ) :
    decodeAlphanumeric bits length ≠ unsupportedSentinel := by
  intro h
  have hn : 'n' ∈ decodeAlphanumeric bits length := by
    rw [h]
    decide
  have := mem_decodeAlphanumericGo bits length length 0 'n' hn
  revert this
  decide

/-- C2 (counterexample): a byte-mode bitstream (mode indicator 4) whose 19
payload bytes spell exactly the sentinel text makes `decodeData` return the
sentinel string even though the mode indicator is a supported one, so the
sentinel is not returned *exactly* when the indicator is outside {1, 2, 4}. -/
theorem decodeData_sentinel_collision :
    8 ≤ (toBits 4 4 ++ toBits 19 8
        ++ (unsupportedSentinel.map fun c => toBits c.toNat 8).flatten).length ∧
    bitsToInt ((toBits 4 4 ++ toBits 19 8
        ++ (unsupportedSentinel.map fun c => toBits c.toNat 8).flatten).take 4) = 4 ∧
    decodeData (toBits 4 4 ++ toBits 19 8
        ++ (unsupportedSentinel.map fun c => toBits c.toNat 8).flatten)
      = unsupportedSentinel := by
  refine ⟨by decide, by decide, by decide⟩

/-- C2 (amended): `decodeData` returns the empty string when fewer than 8
bits are available; with at least 8 bits it returns the unsupported-mode
sentinel whenever the 4-bit big-endian mode indicator is not 1, 2 or 4, and
never returns the sentinel for the numeric (1) and alphanumeric (2) modes —
a byte-mode stream may coincidentally decode to the sentinel text.  The
function is total, so no exception is raised in any case. -/
theorem decodeData_mode_dispatch (bits : List Bool) :
    (bits.length < 8 → decodeData bits = []) ∧
    (8 ≤ bits.length → bitsToInt (bits.take 4) ≠ 1 → bitsToInt (bits.take 4) ≠ 2 →
      bitsToInt (bits.take 4) ≠ 4 → decodeData bits = unsupportedSentinel) ∧
    (8 ≤ bits.length → (bitsToInt (bits.take 4) = 1 ∨ bitsToInt (bits.take 4) = 2) →
      decodeData bits ≠ unsupportedSentinel) := by
  refine ⟨?_, ?_, ?_⟩
  · intro h
    simp [decodeData, h]
  · intro h h1 h2 h4
    rw [decodeData, if_neg (by omega)]
    simp only [h1, h2, h4, if_false]
  · intro h hm
    rw [decodeData, if_neg (by omega)]
    rcases hm with hm | hm
    · rw [hm]
      norm_num
      exact decodeNumeric_ne_sentinel _ _
    · rw [hm]
      norm_num
      exact decodeAlphanumeric_ne_sentinel _ _

/-- Witness for the amended C2: an 8-bit stream with mode indicator 3 yields
the sentinel. -/
theorem decodeData_mode_dispatch_witness :
    decodeData (toBits 3 4 ++ toBits 0 4) = unsupportedSentinel :=
  (decodeData_mode_dispatch (toBits 3 4 ++ toBits 0 4)).2.1
    (by decide) (by decide) (by decide) (by decide)

/-! ## C3 — numeric-mode group decoding -/


lemma decodeNumericGo_groups (bits : List Bool) (length : ℕ) :
    ∀ fuel g, length ≤ 3 * g + fuel →
      decodeNumericGo bits length fuel (3 * g)
        = ((List.range ((length - 3 * g + 2) / 3)).map fun k =>
            numericGroup bits length (g + k)).flatten := by
  intro fuel
  induction fuel with
  | zero =>
    intro g hle
    have hz : (length - 3 * g + 2) / 3 = 0 := by omega
    simp [decodeNumericGo, hz]
  | succ f ih =>
    intro g hle
    unfold decodeNumericGo
    by_cases h : 3 * g < length
    · rw [if_pos h]
      have hcnt : (length - 3 * g + 2) / 3 = (length - 3 * (g + 1) + 2) / 3 + 1 := by
        omega
      rw [hcnt, List.range_succ_eq_map, List.map_cons, List.flatten_cons, List.map_map]
      have hhead : numericGroup bits length (g + 0)
          = padStart (min 3 (length - 3 * g))
              (natToDigits (bitsToInt ((bits.drop (3 * g * 3)).take
                (min 3 (length - 3 * g) * 3 + (min 3 (length - 3 * g) - 1))))) := by
        simp only [numericGroup, Nat.add_zero]
      have htail : ((List.range ((length - 3 * (g + 1) + 2) / 3)).map
            ((fun k => numericGroup bits length (g + k)) ∘ Nat.succ))
          = (List.range ((length - 3 * (g + 1) + 2) / 3)).map
              (fun k => numericGroup bits length ((g + 1) + k)) := by
        apply List.map_congr_left
        intro k _
        simp only [Function.comp_apply]
        congr 1
        omega
      rw [hhead, htail, ← ih (g + 1) (by omega)]
      have hidx : 3 * (g + 1) = 3 * g + 3 := by ring
      rw [hidx]
    · rw [if_neg h]
      have hz : (length - 3 * g + 2) / 3 = 0 := by omega
      simp [hz]

/-- C3: `decodeNumeric` concatenates, in order, one rendered group per digit
index `i = 0, 3, 6, …` below the declared count `C`: the group at `i` has
`c = min 3 (C - i)` digits, reads the slice at bit `3·i` of width
`3c + (c - 1)`, interprets it big-endian and renders it zero-padded to `c`
characters; bit-value 5 renders as "5" for a 1-digit group and as "005" for
a 3-digit group. -/
theorem decodeNumeric_groups (bits : List Bool) (C : ℕ) :
    decodeNumeric bits C
      = ((List.range ((C + 2) / 3)).map fun g => numericGroup bits C g).flatten ∧
    decodeNumeric (toBits 5 3) 1 = ['5'] ∧
    decodeNumeric (toBits 5 11) 3 = ['0', '0', '5'] := by
  refine ⟨?_, by decide, by decide⟩
  have h := decodeNumericGo_groups bits C C 0 (by omega)
  simpa [decodeNumeric] using h

/-! ## C1 — zigzag extraction -/

lemma filterMap_guard_eq_filter_map {α β : Type*} (p : α → Bool) (f : α → β) :
    ∀ l : List α,
      (l.filterMap fun a => if p a then none else some (f a))
        = (l.filter fun a => !p a).map f := by
  intro l
  induction l with
  | nil => rfl
  | cons a l ih => by_cases h : p a <;> simp [h, ih]

lemma readDataGo_eq_filter (m : BitMatrix) :
    ∀ fuel col up,
      readDataGo m fuel col up
        = ((zigzagGo m.size fuel col up).filter fun p => !isReserved p.1 p.2 m.size).map
            fun p => m.get (p.1 : ℤ) (p.2 : ℤ) := by
  intro fuel
  induction fuel with
  | zero =>
    intro col up
    rfl
  | succ f ih =>
    intro col up
    unfold readDataGo zigzagGo
    by_cases h : col = 0
    · simp [h]
    · rw [if_neg h, if_neg h, List.filter_append, List.map_append, ← ih]
      dsimp only
      congr 1
      unfold zigzagPair
      rw [List.filter_flatMap, List.map_flatMap]
      congr 1
      funext count
      dsimp only
      exact filterMap_guard_eq_filter_map _ _ _

lemma zigzagGo_zero_col (size : ℕ) : ∀ fuel up, zigzagGo size fuel 0 up = [] := by
  intro fuel up
  cases fuel <;> simp [zigzagGo]

lemma rowFn_lt (size count : ℕ) (up : Bool) (h : count < size) :
    (if up = true then size - 1 - count else count) < size := by
  cases up
  · show count < size
    exact h
  · show size - 1 - count < size
    omega

lemma rowFn_invol (size y : ℕ) (up : Bool) (h : y < size) :
    (if up = true then size - 1 - (if up = true then size - 1 - y else y)
      else (if up = true then size - 1 - y else y)) = y := by
  cases up
  · rfl
  · show size - 1 - (size - 1 - y) = y
    omega

lemma rowFn_arg_lt (size y : ℕ) (up : Bool) (h : y < size) :
    (if up = true then size - 1 - y else y) < size := by
  cases up
  · exact h
  · show size - 1 - y < size
    omega

lemma mem_zigzagPair (size c : ℕ) (up : Bool) (x y : ℕ) :
    ((x, y) ∈ zigzagPair size c up) ↔ ((x = c ∨ x = c - 1) ∧ y < size) := by
  unfold zigzagPair
  simp only [List.mem_flatMap, List.mem_range]
  constructor
  · rintro ⟨count, hcount, hmem⟩
    have hlt := rowFn_lt size count up hcount
    simp only [List.mem_cons, List.mem_singleton, List.not_mem_nil, or_false,
      Prod.mk.injEq] at hmem
    rcases hmem with ⟨hx, hy⟩ | ⟨hx, hy⟩
    · exact ⟨Or.inl hx, hy ▸ hlt⟩
    · exact ⟨Or.inr hx, hy ▸ hlt⟩
  · rintro ⟨hx, hy⟩
    refine ⟨if up then size - 1 - y else y, rowFn_arg_lt size y up hy, ?_⟩
    rw [rowFn_invol size y up hy]
    rcases hx with hx | hx <;> subst hx <;> simp

lemma zigzagPair_fst (size c : ℕ) (up : Bool) (p : ℕ × ℕ)
    (hp : p ∈ zigzagPair size c up) : p.1 = c ∨ p.1 = c - 1 := by
  obtain ⟨x, y⟩ := p
  exact ((mem_zigzagPair size c up x y).mp hp).1

lemma nodup_zigzagPair (size c : ℕ) (up : Bool) (hc : 1 ≤ c) :
    (zigzagPair size c up).Nodup := by
  have hrw : zigzagPair size c up
      = ((List.range size).map fun count =>
          if up = true then size - 1 - count else count).flatMap
          fun row => [(c, row), (c - 1, row)] := by
    unfold zigzagPair
    rw [List.flatMap_map]
  rw [hrw, List.nodup_flatMap]
  refine ⟨?_, ?_⟩
  · intro row _
    refine List.nodup_cons.mpr ⟨?_, List.nodup_singleton _⟩
    simp only [List.mem_singleton, Prod.mk.injEq]
    rintro ⟨h, -⟩
    omega
  · have hinj : ((List.range size).map fun count =>
        if up = true then size - 1 - count else count).Nodup := by
      refine List.Nodup.map_on ?_ (List.nodup_range size)
      intro a ha b hb hab
      rw [List.mem_range] at ha hb
      cases up
      · exact hab
      · revert hab
        show size - 1 - a = size - 1 - b → a = b
        omega
    refine hinj.imp ?_
    intro r1 r2 hne p hp1 hp2
    apply hne
    simp only [Function.onFun, List.mem_cons, List.mem_singleton, List.not_mem_nil,
      or_false] at hp1 hp2
    have h1 : p.2 = r1 := by rcases hp1 with h | h <;> rw [h]
    have h2 : p.2 = r2 := by rcases hp2 with h | h <;> rw [h]
    rw [← h1, ← h2]

lemma zigzagGo_fst_le (size : ℕ) :
    ∀ fuel col up p, p ∈ zigzagGo size fuel col up → p.1 ≤ col := by
  intro fuel
  induction fuel with
  | zero =>
    intro col up p hp
    simp [zigzagGo] at hp
  | succ f ih =>
    intro col up p hp
    unfold zigzagGo at hp
    by_cases h : col = 0
    · rw [if_pos h] at hp
      simp at hp
    · rw [if_neg h] at hp
      have hcle : (if col = 6 then 5 else col) ≤ col := by
        by_cases h6 : col = 6 <;> simp [h6]
      rcases List.mem_append.mp hp with hp | hp
      · rcases zigzagPair_fst _ _ _ _ hp with h1 | h1 <;> omega
      · have := ih _ _ _ hp
        omega

lemma zigzagGo_nodup (size : ℕ) :
    ∀ fuel col up, (zigzagGo size fuel col up).Nodup := by
  intro fuel
  induction fuel with
  | zero =>
    intro col up
    simp [zigzagGo]
  | succ f ih =>
    intro col up
    unfold zigzagGo
    by_cases h : col = 0
    · simp [h]
    · rw [if_neg h]
      set c := if col = 6 then 5 else col with hc
      have hc1 : 1 ≤ c := by
        rw [hc]
        by_cases h6 : col = 6
        · simp [h6]
        · simp only [h6, if_false, ite_false]
          omega
      rw [List.nodup_append]
      refine ⟨nodup_zigzagPair size c up hc1, ih _ _, ?_⟩
      intro p hp1 hp2
      by_cases hc2 : c = 1
      · rw [hc2] at hp2
        rw [show (1 : ℕ) - 2 = 0 from rfl, zigzagGo_zero_col] at hp2
        simp at hp2
      · have h1 := zigzagPair_fst _ _ _ _ hp1
        have h2 := zigzagGo_fst_le size f (c - 2) (!up) p hp2
        omega

lemma zigzagGo_mem_odd (size : ℕ) :
    ∀ fuel col up x y, col ≤ fuel → col % 2 = 1 →
      (((x, y) ∈ zigzagGo size fuel col up) ↔ (x ≤ col ∧ y < size)) := by
  intro fuel
  induction fuel with
  | zero =>
    intro col up x y hle hodd
    omega
  | succ f ih =>
    intro col up x y hle hodd
    have h0 : col ≠ 0 := by omega
    have h6 : col ≠ 6 := by omega
    unfold zigzagGo
    rw [if_neg h0]
    simp only [h6, if_false, ite_false]
    rw [List.mem_append, mem_zigzagPair]
    by_cases h1 : col = 1
    · subst h1
      rw [show (1 : ℕ) - 2 = 0 from rfl, zigzagGo_zero_col]
      simp only [List.not_mem_nil, or_false]
      omega
    · rw [ih (col - 2) (!up) x y (by omega) (by omega)]
      omega

lemma zigzagGo_mem_even (size : ℕ) :
    ∀ fuel col up x y, col ≤ fuel → col % 2 = 0 → 6 ≤ col →
      (((x, y) ∈ zigzagGo size fuel col up) ↔ (x ≤ col ∧ x ≠ 6 ∧ y < size)) := by
  intro fuel
  induction fuel with
  | zero =>
    intro col up x y hle heven h6
    omega
  | succ f ih =>
    intro col up x y hle heven h6
    have h0 : col ≠ 0 := by omega
    unfold zigzagGo
    rw [if_neg h0]
    by_cases hc6 : col = 6
    · subst hc6
      simp only [if_true, ite_true]
      rw [List.mem_append, mem_zigzagPair,
        zigzagGo_mem_odd size f (5 - 2) (!up) x y (by omega) (by omega)]
      omega
    · simp only [hc6, if_false, ite_false]
      rw [List.mem_append, mem_zigzagPair,
        ih (col - 2) (!up) x y (by omega) (by omega) (by omega)]
      omega

lemma mem_zigzag (size x y : ℕ) (hsz : size % 2 = 1) (h21 : 21 ≤ size) :
    ((x, y) ∈ zigzag size) ↔ (x < size ∧ x ≠ 6 ∧ y < size) := by
  unfold zigzag
  rw [zigzagGo_mem_even size size (size - 1) true x y (by omega) (by omega) (by omega)]
  omega

lemma count_eq_one_of_nodup_of_mem {α : Type*} [BEq α] [LawfulBEq α] (l : List α) (a : α)
    (hnd : l.Nodup) (ha : a ∈ l) : l.count a = 1 := by
  induction l with
  | nil => simp at ha
  | cons b t ih =>
    rw [List.count_cons]
    rcases List.nodup_cons.mp hnd with ⟨hb, hndt⟩
    rcases List.mem_cons.mp ha with rfl | hat
    · rw [if_pos (by simp), List.count_eq_zero.mpr hb]
    · have hne : ¬(b == a) = true := by
        simp only [beq_iff_eq]
        intro h
        subst h
        exact hb hat
      rw [if_neg hne, ih hndt hat]

lemma isReserved_six_col (y size : ℕ) : isReserved 6 y size = true := by
  unfold isReserved
  split_ifs with h1 h2 h3 h4 <;> first | rfl | (exact absurd (Or.inl rfl) h4)

/-- C1: the bitstream of `readData` is exactly the matrix values, in
visitation order, of the zigzag cells surviving the reserved-region filter;
every coordinate surviving the filter is non-reserved; and on a matrix of
odd size at least 21 every in-range non-reserved cell appears in that
filtered visitation sequence exactly once. -/
theorem readData_zigzag_spec (m : BitMatrix) :
    readData m
        = ((zigzag m.size).filter fun p => !isReserved p.1 p.2 m.size).map
            (fun p => m.get (p.1 : ℤ) (p.2 : ℤ)) ∧
    (∀ p ∈ (zigzag m.size).filter fun p => !isReserved p.1 p.2 m.size,
        isReserved p.1 p.2 m.size = false) ∧
    (m.size % 2 = 1 → 21 ≤ m.size → ∀ x y : ℕ, x < m.size → y < m.size →
        isReserved x y m.size = false →
        ((zigzag m.size).filter fun p => !isReserved p.1 p.2 m.size).count (x, y) = 1) := by
  refine ⟨readDataGo_eq_filter m m.size (m.size - 1) true, ?_, ?_⟩
  · intro p hp
    have := (List.mem_filter.mp hp).2
    simpa using this
  · intro hsz h21 x y hx hy hres
    apply count_eq_one_of_nodup_of_mem
    · exact (zigzagGo_nodup m.size m.size (m.size - 1) true).filter _
    · apply List.mem_filter.mpr
      refine ⟨?_, by simp [hres]⟩
      apply (mem_zigzag m.size x y hsz h21).mpr
      refine ⟨hx, ?_, hy⟩
      intro h6
      subst h6
      rw [isReserved_six_col] at hres
      simp at hres

/-- Witness for C1 on the 21 × 21 matrix: the non-reserved cell (20, 10) is
visited exactly once. -/
theorem readData_zigzag_spec_witness :
    ((zigzag (BitMatrix.new 21).size).filter
        (fun p => !isReserved p.1 p.2 (BitMatrix.new 21).size)).count (20, 10) = 1 :=
  (readData_zigzag_spec (BitMatrix.new 21)).2.2 (by decide) (by decide) 20 10
    (by decide) (by decide) (by decide)

/-! ## C6 — per-cell behaviour of the sampling loop -/


lemma sampleCell_eq (img : QRImageData) (tl : FinderPattern) (ms : ℚ)
    (m : BitMatrix) (x y : ℕ) :
    sampleCell img tl ms m x y =
      if sampleInBounds img tl ms x y then
        m.set (x : ℤ) (y : ℤ)
          (img.isBlackDefault (roundJS (samplePx tl ms x)) (roundJS (samplePy tl ms y)))
      else m := rfl

lemma set_size (m : BitMatrix) (x y : ℤ) (v : Bool) : (m.set x y v).size = m.size := by
  unfold BitMatrix.set
  split <;> rfl

lemma set_shape (m : BitMatrix) (dim : ℕ) (x y : ℤ) (v : Bool)
    (hlen : m.bits.length = dim) (hrows : ∀ row ∈ m.bits, row.length = dim) :
    (m.set x y v).bits.length = dim ∧ ∀ row ∈ (m.set x y v).bits, row.length = dim := by
  unfold BitMatrix.set
  split
  · next h =>
    refine ⟨by simpa using hlen, ?_⟩
    intro row hrow
    rcases List.mem_or_eq_of_mem_set hrow with hrow | hrow
    · exact hrows row hrow
    · have hmem : m.bits.getD y.toNat [] ∈ m.bits := by
        rw [List.getD_eq_getElem _ _ h.2]
        exact List.getElem_mem h.2
      subst hrow
      unfold BitMatrix.setRow
      split
      · simpa using hrows _ hmem
      · exact hrows _ hmem
  · exact ⟨hlen, hrows⟩

lemma new_shape (dim : ℕ) :
    (BitMatrix.new dim).bits.length = dim ∧
      ∀ row ∈ (BitMatrix.new dim).bits, row.length = dim := by
  refine ⟨by simp [BitMatrix.new], ?_⟩
  intro row hrow
  simp only [BitMatrix.new] at hrow
  rw [List.eq_of_mem_replicate hrow]
  simp

lemma get_nat (m : BitMatrix) (a b : ℕ) :
    m.get (a : ℤ) (b : ℤ) = (((m.bits[b]?).getD [])[a]?).getD false := by
  unfold BitMatrix.get
  rw [if_pos ⟨Int.natCast_nonneg a, Int.natCast_nonneg b⟩]
  simp only [Int.toNat_natCast, List.getD, List.get?_eq_getElem?]

lemma new_get_false (dim : ℕ) (a b : ℕ) :
    (BitMatrix.new dim).get (a : ℤ) (b : ℤ) = false := by
  rw [get_nat]
  show ((((List.replicate dim (List.replicate dim false))[b]?).getD [])[a]?).getD false
    = false
  rw [List.getElem?_replicate]
  by_cases hb : b < dim
  · rw [if_pos hb, Option.getD_some, List.getElem?_replicate]
    by_cases ha : a < dim
    · rw [if_pos ha, Option.getD_some]
    · rw [if_neg ha, Option.getD_none]
  · rw [if_neg hb, Option.getD_none]
    rfl

lemma set_nat (m : BitMatrix) (x y : ℕ) (v : Bool) (hy : y < m.bits.length) :
    m.set (x : ℤ) (y : ℤ) v
      = { m with bits := m.bits.set y ((m.bits.getD y []).set x v) } := by
  unfold BitMatrix.set BitMatrix.setRow
  rw [if_pos ⟨Int.natCast_nonneg y, by rw [Int.toNat_natCast]; exact hy⟩,
    if_pos (Int.natCast_nonneg x)]
  simp only [Int.toNat_natCast]

lemma get_set_nat (m : BitMatrix) (dim : ℕ) (x y : ℕ) (v : Bool) (a b : ℕ)
    (hlen : m.bits.length = dim) (hrows : ∀ row ∈ m.bits, row.length = dim)
    (hx : x < dim) (hy : y < dim) :
    (m.set (x : ℤ) (y : ℤ) v).get (a : ℤ) (b : ℤ)
      = if a = x ∧ b = y then v else m.get (a : ℤ) (b : ℤ) := by
  have hylen : y < m.bits.length := by omega
  have hrow : m.bits.getD y [] ∈ m.bits := by
    rw [List.getD_eq_getElem _ _ hylen]
    exact List.getElem_mem hylen
  have hrowlen : (m.bits.getD y []).length = dim := hrows _ hrow
  rw [set_nat m x y v hylen, get_nat, get_nat]
  show ((((m.bits.set y ((m.bits.getD y []).set x v))[b]?).getD [])[a]?).getD false
    = if a = x ∧ b = y then v else (((m.bits[b]?).getD [])[a]?).getD false
  by_cases hb : b = y
  · subst hb
    rw [List.getElem?_set_self hylen, Option.getD_some]
    have hbits : (m.bits[b]?).getD [] = m.bits.getD b [] := by
      rw [List.getD, List.get?_eq_getElem?]
    rw [hbits]
    by_cases ha : a = x
    · subst ha
      rw [if_pos ⟨rfl, rfl⟩, List.getElem?_set_self (by omega), Option.getD_some]
    · rw [if_neg (by tauto), List.getElem?_set_ne (by omega)]
  · rw [if_neg (by tauto), List.getElem?_set_ne (by omega)]

lemma sampleRow_shape (img : QRImageData) (tl : FinderPattern) (ms : ℚ) (dim y : ℕ) :
    ∀ (l : List ℕ) (m : BitMatrix),
      m.bits.length = dim → (∀ row ∈ m.bits, row.length = dim) →
      ((l.foldl (fun acc x => sampleCell img tl ms acc x y) m).bits.length = dim ∧
        ∀ row ∈ (l.foldl (fun acc x => sampleCell img tl ms acc x y) m).bits,
          row.length = dim) := by
  intro l
  induction l with
  | nil => exact fun m hlen hrows => ⟨hlen, hrows⟩
  | cons c t ih =>
    intro m hlen hrows
    rw [List.foldl_cons]
    apply ih
    · rw [sampleCell_eq]
      split
      · exact (set_shape m dim _ _ _ hlen hrows).1
      · exact hlen
    · rw [sampleCell_eq]
      split
      · exact (set_shape m dim _ _ _ hlen hrows).2
      · exact hrows

lemma sampleRow_size (img : QRImageData) (tl : FinderPattern) (ms : ℚ) (y : ℕ) :
    ∀ (l : List ℕ) (m : BitMatrix),
      (l.foldl (fun acc x => sampleCell img tl ms acc x y) m).size = m.size := by
  intro l
  induction l with
  | nil => exact fun m => rfl
  | cons c t ih =>
    intro m
    rw [List.foldl_cons, ih]
    rw [sampleCell_eq]
    split
    · exact set_size m _ _ _
    · rfl

lemma sampleRow_get (img : QRImageData) (tl : FinderPattern) (ms : ℚ) (dim y : ℕ)
    (hy : y < dim) :
    ∀ n, n ≤ dim → ∀ (m : BitMatrix),
      m.bits.length = dim → (∀ row ∈ m.bits, row.length = dim) →
      ∀ a b : ℕ, a < dim → b < dim →
      (((List.range n).foldl (fun acc x => sampleCell img tl ms acc x y) m).get
          (a : ℤ) (b : ℤ))
        = if b = y ∧ a < n ∧ sampleInBounds img tl ms a y
          then img.isBlackDefault (roundJS (samplePx tl ms a)) (roundJS (samplePy tl ms y))
          else m.get (a : ℤ) (b : ℤ) := by
  intro n
  induction n with
  | zero =>
    intro _ m hlen hrows a b ha hb
    rw [List.range_zero, List.foldl_nil, if_neg (by omega)]
  | succ k ih =>
    intro hk m hlen hrows a b ha hb
    rw [List.range_succ, List.foldl_append, List.foldl_cons, List.foldl_nil]
    have hshape := sampleRow_shape img tl ms dim y (List.range k) m hlen hrows
    rw [sampleCell_eq]
    split
    · next hin =>
      rw [get_set_nat _ dim k y _ a b hshape.1 hshape.2 (by omega) (by omega)]
      by_cases hab : a = k ∧ b = y
      · rw [if_pos hab, if_pos (by
          refine ⟨hab.2, by omega, ?_⟩
          rw [hab.1]
          exact hin)]
        rw [hab.1]
      · rw [if_neg hab, ih (by omega) m hlen hrows a b ha hb]
        by_cases hcond : b = y ∧ a < k ∧ sampleInBounds img tl ms a y
        · rw [if_pos hcond, if_pos ⟨hcond.1, by omega, hcond.2.2⟩]
        · rw [if_neg hcond, if_neg (by
            rintro ⟨h1, h2, h3⟩
            rcases Nat.lt_succ_iff_lt_or_eq.mp h2 with h2 | h2
            · exact hcond ⟨h1, h2, h3⟩
            · exact hab ⟨h2, h1⟩)]
    · next hin =>
      rw [ih (by omega) m hlen hrows a b ha hb]
      by_cases hcond : b = y ∧ a < k ∧ sampleInBounds img tl ms a y
      · rw [if_pos hcond, if_pos ⟨hcond.1, by omega, hcond.2.2⟩]
      · rw [if_neg hcond, if_neg (by
          rintro ⟨h1, h2, h3⟩
          rcases Nat.lt_succ_iff_lt_or_eq.mp h2 with h2 | h2
          · exact hcond ⟨h1, h2, h3⟩
          · subst h2
            exact hin h3)]

lemma sampleLoop_size (img : QRImageData) (tl : FinderPattern) (ms : ℚ) (dim : ℕ) :
    (sampleLoop img tl ms dim).size = dim := by
  unfold sampleLoop
  have : ∀ (l : List ℕ) (m : BitMatrix),
      (l.foldl (fun m y => (List.range dim).foldl
        (fun m x => sampleCell img tl ms m x y) m) m).size = m.size := by
    intro l
    induction l with
    | nil => exact fun m => rfl
    | cons c t ih =>
      intro m
      rw [List.foldl_cons, ih, sampleRow_size]
  rw [this]
  rfl

lemma sampleLoop_get (img : QRImageData) (tl : FinderPattern) (ms : ℚ) (dim : ℕ)
    (a b : ℕ) (ha : a < dim) (hb : b < dim) :
    (sampleLoop img tl ms dim).get (a : ℤ) (b : ℤ)
      = if sampleInBounds img tl ms a b
        then img.isBlackDefault (roundJS (samplePx tl ms a)) (roundJS (samplePy tl ms b))
        else false := by
  have main : ∀ k, k ≤ dim →
      (((List.range k).foldl (fun m y => (List.range dim).foldl
          (fun m x => sampleCell img tl ms m x y) m) (BitMatrix.new dim)).get
        (a : ℤ) (b : ℤ))
        = if b < k ∧ sampleInBounds img tl ms a b
          then img.isBlackDefault (roundJS (samplePx tl ms a)) (roundJS (samplePy tl ms b))
          else false := by
    intro k
    induction k with
    | zero =>
      intro _
      rw [List.range_zero, List.foldl_nil, if_neg (by omega), new_get_false]
    | succ j ih =>
      intro hk
      rw [List.range_succ, List.foldl_append, List.foldl_cons, List.foldl_nil]
      have hshape : ∀ (l : List ℕ) (m : BitMatrix),
          m.bits.length = dim → (∀ row ∈ m.bits, row.length = dim) →
          ((l.foldl (fun m y => (List.range dim).foldl
              (fun m x => sampleCell img tl ms m x y) m) m).bits.length = dim ∧
            ∀ row ∈ (l.foldl (fun m y => (List.range dim).foldl
              (fun m x => sampleCell img tl ms m x y) m) m).bits, row.length = dim) := by
        intro l
        induction l with
        | nil => exact fun m hlen hrows => ⟨hlen, hrows⟩
        | cons c t ihl =>
          intro m hlen hrows
          rw [List.foldl_cons]
          apply ihl
          · exact (sampleRow_shape img tl ms dim c (List.range dim) m hlen hrows).1
          · exact (sampleRow_shape img tl ms dim c (List.range dim) m hlen hrows).2
      have hsh := hshape (List.range j) (BitMatrix.new dim) (new_shape dim).1 (new_shape dim).2
      rw [sampleRow_get img tl ms dim j (by omega) dim (le_refl dim) _ hsh.1 hsh.2 a b ha hb]
      by_cases hcond : b = j ∧ a < dim ∧ sampleInBounds img tl ms a j
      · rw [if_pos hcond, if_pos ⟨by omega, hcond.1 ▸ hcond.2.2⟩, hcond.1]
      · rw [if_neg hcond, ih (by omega)]
        by_cases hprev : b < j ∧ sampleInBounds img tl ms a b
        · rw [if_pos hprev, if_pos ⟨by omega, hprev.2⟩]
        · rw [if_neg hprev, if_neg (by
            rintro ⟨h1, h2⟩
            rcases Nat.lt_succ_iff_lt_or_eq.mp h1 with h1 | h1
            · exact hprev ⟨h1, h2⟩
            · exact hcond ⟨h1, ha, h1 ▸ h2⟩)]
  have := main dim (le_refl dim)
  unfold sampleLoop
  rw [this, if_congr (by constructor <;> intro h <;> [exact h.2; exact ⟨hb, h⟩]) rfl rfl]

/-- C6: a grid cell of the matrix produced by `QRSampler.sample` whose
computed pixel position `topLeft.center + (x·moduleSize, y·moduleSize)` lies
outside the image rectangle is left at the `BitMatrix` default `false`, and a
cell is `true` only when that position is in bounds and the image classifies
the rounded pixel as black under its active threshold. -/
theorem sample_grid_spec (sq : ℚ → ℚ) (img : QRImageData) (ps : List FinderPattern)
    (h3 : 3 ≤ ps.length) (x y : ℕ)
    (hx : x < (sampleResult sq img ps).size) (hy : y < (sampleResult sq img ps).size) :
    Sampler.sample sq img ps = Except.ok (sampleResult sq img ps) ∧
    (¬ sampleInBounds img (orderPatterns ps).1
        (estimateModuleSize (orderPatterns ps).1 (orderPatterns ps).2.1
          (orderPatterns ps).2.2) x y →
      (sampleResult sq img ps).get (x : ℤ) (y : ℤ) = false) ∧
    ((sampleResult sq img ps).get (x : ℤ) (y : ℤ) = true →
      sampleInBounds img (orderPatterns ps).1
        (estimateModuleSize (orderPatterns ps).1 (orderPatterns ps).2.1
          (orderPatterns ps).2.2) x y ∧
      img.isBlackDefault
          (roundJS (samplePx (orderPatterns ps).1
            (estimateModuleSize (orderPatterns ps).1 (orderPatterns ps).2.1
              (orderPatterns ps).2.2) x))
          (roundJS (samplePy (orderPatterns ps).1
            (estimateModuleSize (orderPatterns ps).1 (orderPatterns ps).2.1
              (orderPatterns ps).2.2) y)) = true) := by
  refine ⟨by unfold Sampler.sample; rw [if_neg (by omega)], ?_, ?_⟩
  all_goals
    unfold sampleResult at hx hy ⊢
    rw [sampleLoop_size] at hx hy
    rw [sampleLoop_get _ _ _ _ x y hx hy]
  · intro hnb
    rw [if_neg hnb]
  · intro hget
    split at hget
    · next hin => exact ⟨hin, hget⟩
    · exact absurd hget (by simp)

/-- Witness for C6: with three unit-size patterns at the origin and a constant
square root of 2 the sampled grid is 9 × 9; cell (5, 5) maps to pixel (5, 5),
outside the 2 × 2 image, and is left white. -/
theorem sample_grid_spec_witness :
    (sampleResult (fun _ => 2) ⟨2, 2, [255, 255, 255, 255], 0⟩
        [⟨⟨0, 0⟩, 1⟩, ⟨⟨0, 0⟩, 1⟩, ⟨⟨0, 0⟩, 1⟩]).get (5 : ℤ) (5 : ℤ) = false := by
  have hYY : byCenterY ⟨⟨0, 0⟩, 1⟩ ⟨⟨0, 0⟩, 1⟩ := le_refl _
  have hXX : byCenterX ⟨⟨0, 0⟩, 1⟩ ⟨⟨0, 0⟩, 1⟩ := le_refl _
  have horder : orderPatterns [⟨⟨0, 0⟩, 1⟩, ⟨⟨0, 0⟩, 1⟩, ⟨⟨0, 0⟩, 1⟩]
      = (⟨⟨0, 0⟩, 1⟩, ⟨⟨0, 0⟩, 1⟩, ⟨⟨0, 0⟩, 1⟩) := by
    simp [orderPatterns, List.insertionSort, List.orderedInsert, hYY, hXX]
  have hms : estimateModuleSize ⟨⟨0, 0⟩, 1⟩ ⟨⟨0, 0⟩, 1⟩ ⟨⟨0, 0⟩, 1⟩ = 1 := by
    unfold estimateModuleSize
    norm_num
  have hdim : computeDimension (fun _ => 2) ⟨⟨0, 0⟩, 1⟩ ⟨⟨0, 0⟩, 1⟩ ⟨⟨0, 0⟩, 1⟩ 1 = 9 := by
    rw [computeDimension_const]
    have h2 : roundJS ((2 : ℚ) / 1) = 2 := by norm_num [roundJS]
    rw [h2, if_pos (by decide)]
    decide
  have hsize : (sampleResult (fun _ => 2) ⟨2, 2, [255, 255, 255, 255], 0⟩
      [⟨⟨0, 0⟩, 1⟩, ⟨⟨0, 0⟩, 1⟩, ⟨⟨0, 0⟩, 1⟩]).size = 9 := by
    unfold sampleResult
    rw [sampleLoop_size, horder, hms, hdim]
    rfl
  refine (sample_grid_spec (fun _ => 2) ⟨2, 2, [255, 255, 255, 255], 0⟩
      [⟨⟨0, 0⟩, 1⟩, ⟨⟨0, 0⟩, 1⟩, ⟨⟨0, 0⟩, 1⟩] (by decide) 5 5
      (by rw [hsize]; omega) (by rw [hsize]; omega)).2.1 ?_
  rw [horder, hms]
  unfold sampleInBounds samplePx
  push_neg
  intro _
  norm_num

/-! ## C8 — Otsu threshold selection -/


lemma histPrefixW_succ (hist : ℕ → ℕ) (n : ℕ) :
    histPrefixW hist (n + 1) = histPrefixW hist n + hist n := by
  unfold histPrefixW
  rw [List.range_succ, List.map_append, List.sum_append]
  simp

lemma histPrefixS_succ (hist : ℕ → ℕ) (n : ℕ) :
    histPrefixS hist (n + 1) = histPrefixS hist n + n * hist n := by
  unfold histPrefixS
  rw [List.range_succ, List.map_append, List.sum_append]
  simp

lemma histPrefixW_mono (hist : ℕ → ℕ) (m n : ℕ) (h : m ≤ n) :
    histPrefixW hist m ≤ histPrefixW hist n := by
  induction n, h using Nat.le_induction with
  | base => exact le_refl _
  | succ n hn ih =>
    rw [histPrefixW_succ]
    omega

lemma countP_lt_succ (gs : List ℕ) (n : ℕ) :
    gs.countP (fun v => decide (v < n + 1))
      = gs.countP (fun v => decide (v < n)) + gs.count n := by
  induction gs with
  | nil => rfl
  | cons a t ih =>
    simp only [List.countP_cons, List.count_cons, ih]
    by_cases h1 : a < n + 1 <;> by_cases h2 : a < n <;> by_cases h3 : a = n <;>
      simp [h1, h2, h3] <;> omega

lemma histPrefixW_count (gs : List ℕ) (n : ℕ) :
    histPrefixW (fun v => gs.count v) n = gs.countP (fun v => decide (v < n)) := by
  induction n with
  | zero =>
    rw [show histPrefixW (fun v => gs.count v) 0 = 0 from rfl]
    symm
    rw [List.countP_eq_zero]
    intro a _
    simp
  | succ k ih =>
    rw [histPrefixW_succ, ih, countP_lt_succ]

lemma histPrefixW_le_length (gs : List ℕ) (n : ℕ) :
    histPrefixW (fun v => gs.count v) n ≤ gs.length := by
  rw [histPrefixW_count]
  exact List.countP_le_length _

lemma codeVar_nonneg (hist : ℕ → ℕ) (total sum t : ℕ) :
    0 ≤ codeVar hist total sum t := by
  unfold codeVar
  split
  · exact le_refl 0
  · unfold loopVar
    exact mul_nonneg (mul_nonneg (Nat.cast_nonneg _) (Nat.cast_nonneg _))
      (mul_self_nonneg _)

lemma foldr_max_append_one (l : List ℚ) (a : ℚ) :
    (l ++ [a]).foldr max 0 = max (l.foldr max 0) a := by
  induction l with
  | nil =>
    simp [max_comm]
  | cons b t ih =>
    simp only [List.cons_append, List.foldr_cons, ih]
    rw [← max_assoc]

lemma runMax_succ (hist : ℕ → ℕ) (total sum i : ℕ) :
    runMax hist total sum (i + 1)
      = max (runMax hist total sum i) (codeVar hist total sum i) := by
  unfold runMax
  rw [List.range_succ, List.map_append]
  exact foldr_max_append_one _ _

lemma runMax_nonneg (hist : ℕ → ℕ) (total sum i : ℕ) :
    0 ≤ runMax hist total sum i := by
  induction i with
  | zero => exact le_refl 0
  | succ k ih =>
    rw [runMax_succ]
    exact le_trans ih (le_max_left _ _)

lemma codeVar_le_runMax (hist : ℕ → ℕ) (total sum : ℕ) (j i : ℕ) (h : j < i) :
    codeVar hist total sum j ≤ runMax hist total sum i := by
  induction i with
  | zero => omega
  | succ k ih =>
    rw [runMax_succ]
    rcases Nat.lt_succ_iff_lt_or_eq.mp h with h | h
    · exact le_trans (ih h) (le_max_left _ _)
    · subst h
      exact le_max_right _ _

lemma runMax_stable (hist : ℕ → ℕ) (total sum : ℕ) (i n : ℕ) (hin : i ≤ n)
    (hzero : ∀ j, i ≤ j → codeVar hist total sum j = 0) :
    runMax hist total sum n = runMax hist total sum i := by
  induction n, hin using Nat.le_induction with
  | base => rfl
  | succ n hn ih =>
    rw [runMax_succ, ih, hzero n hn]
    exact max_eq_left (runMax_nonneg _ _ _ _)

lemma otsuGo_spec (hist : ℕ → ℕ) (total sum : ℕ)
    (hbound : ∀ n, histPrefixW hist n ≤ total) :
    ∀ fuel i sumB wB maxVar thr,
      i + fuel = 256 →
      wB = histPrefixW hist i →
      sumB = histPrefixS hist i →
      maxVar = runMax hist total sum i →
      (runMax hist total sum i = 0 → thr = 127) →
      (0 < runMax hist total sum i →
        thr < i ∧ codeVar hist total sum thr = runMax hist total sum i ∧
        ∀ j < thr, codeVar hist total sum j < runMax hist total sum i) →
      ((runMax hist total sum 256 = 0 →
          otsuGo hist total sum fuel i sumB wB maxVar thr = 127) ∧
       (0 < runMax hist total sum 256 →
          otsuGo hist total sum fuel i sumB wB maxVar thr < 256 ∧
          codeVar hist total sum (otsuGo hist total sum fuel i sumB wB maxVar thr)
            = runMax hist total sum 256 ∧
          ∀ j < otsuGo hist total sum fuel i sumB wB maxVar thr,
            codeVar hist total sum j < runMax hist total sum 256)) := by
  intro fuel
  induction fuel with
  | zero =>
    intro i sumB wB maxVar thr hi hwB hsB hmax hz hp
    have : i = 256 := by omega
    subst this
    exact ⟨hz, hp⟩
  | succ f ih =>
    intro i sumB wB maxVar thr hi hwB hsB hmax hz hp
    have hWB : histPrefixW hist (i + 1) = wB + hist i := by
      rw [histPrefixW_succ, hwB]
    have hSB : histPrefixS hist (i + 1) = sumB + i * hist i := by
      rw [histPrefixS_succ, hsB]
    have hstep : otsuGo hist total sum (f + 1) i sumB wB maxVar thr
        = (if wB + hist i = 0 then
            otsuGo hist total sum f (i + 1) sumB (wB + hist i) maxVar thr
          else if total - (wB + hist i) = 0 then thr
          else if maxVar < loopVar sum (sumB + i * hist i) (wB + hist i)
              (total - (wB + hist i)) then
            otsuGo hist total sum f (i + 1) (sumB + i * hist i) (wB + hist i)
              (loopVar sum (sumB + i * hist i) (wB + hist i) (total - (wB + hist i))) i
          else
            otsuGo hist total sum f (i + 1) (sumB + i * hist i) (wB + hist i)
              maxVar thr) := rfl
    rw [hstep]
    by_cases h0 : wB + hist i = 0
    · rw [if_pos h0]
      have hcv : codeVar hist total sum i = 0 := by
        unfold codeVar
        rw [if_pos (Or.inl (by omega))]
      have hrm : runMax hist total sum (i + 1) = runMax hist total sum i := by
        rw [runMax_succ, hcv]
        exact max_eq_left (runMax_nonneg _ _ _ _)
      exact ih (i + 1) sumB (wB + hist i) maxVar thr (by omega) (by omega)
        (by
          have h0' : hist i = 0 := by omega
          rw [hSB, h0']
          omega)
        (by rw [hrm]; exact hmax)
        (by rw [hrm]; exact hz)
        (by rw [hrm]
            intro hpos
            obtain ⟨h1, h2, h3⟩ := hp hpos
            exact ⟨by omega, h2, h3⟩)
    · rw [if_neg h0]
      by_cases hf : total - (wB + hist i) = 0
      · rw [if_pos hf]
        have hWtot : histPrefixW hist (i + 1) = total := by
          have := hbound (i + 1)
          omega
        have hzero : ∀ j, i ≤ j → codeVar hist total sum j = 0 := by
          intro j hij
          unfold codeVar
          have hmono := histPrefixW_mono hist (i + 1) (j + 1) (by omega)
          have hb := hbound (j + 1)
          rw [if_pos (Or.inr (by omega))]
        have hstab := runMax_stable hist total sum i 256 (by omega)
          (fun j hj => hzero j hj)
        rw [hstab]
        exact ⟨hz, fun hpos => by
          obtain ⟨h1, h2, h3⟩ := hp hpos
          exact ⟨by omega, h2, h3⟩⟩
      · rw [if_neg hf]
        have hv : loopVar sum (sumB + i * hist i) (wB + hist i) (total - (wB + hist i))
            = codeVar hist total sum i := by
          unfold codeVar
          rw [if_neg (by omega), hWB, hSB]
        rw [hv]
        have hrm : runMax hist total sum (i + 1)
            = max (runMax hist total sum i) (codeVar hist total sum i) :=
          runMax_succ hist total sum i
        by_cases hcmp : maxVar < codeVar hist total sum i
        · rw [if_pos hcmp]
          have hpos' : 0 < codeVar hist total sum i := by
            have := runMax_nonneg hist total sum i
            rw [hmax] at hcmp
            linarith
          have hrm' : runMax hist total sum (i + 1) = codeVar hist total sum i := by
            rw [hrm]
            exact max_eq_right (by rw [← hmax]; exact le_of_lt hcmp)
          exact ih (i + 1) (sumB + i * hist i) (wB + hist i)
            (codeVar hist total sum i) i (by omega) (by omega) (by omega)
            (by rw [hrm'])
            (by rw [hrm']; intro h; exact absurd h (by linarith))
            (by rw [hrm']
                intro _
                refine ⟨by omega, rfl, ?_⟩
                intro j hj
                have h1 := codeVar_le_runMax hist total sum j i hj
                rw [hmax] at hcmp
                linarith)
        · rw [if_neg hcmp]
          have hrm' : runMax hist total sum (i + 1) = runMax hist total sum i := by
            rw [hrm]
            apply max_eq_left
            rw [hmax] at hcmp
            linarith
          exact ih (i + 1) (sumB + i * hist i) (wB + hist i) maxVar thr
            (by omega) (by omega) (by omega)
            (by rw [hrm']; exact hmax)
            (by rw [hrm']; exact hz)
            (by rw [hrm']
                intro hpos
                obtain ⟨h1, h2, h3⟩ := hp hpos
                exact ⟨by omega, h2, h3⟩)

lemma codeVar_eq_sq_specVar (hist : ℕ → ℕ) (total sum t : ℕ)
    (hb : histPrefixW hist (t + 1) ≤ total) :
    codeVar hist total sum t = (total : ℚ) ^ 2 * specVar hist total sum t := by
  unfold codeVar specVar
  dsimp only
  by_cases h : histPrefixW hist (t + 1) = 0 ∨ total - histPrefixW hist (t + 1) = 0
  · rw [if_pos h, if_pos h]
    ring
  · rw [if_neg h, if_neg h]
    unfold loopVar
    dsimp only
    push_neg at h
    have htot : (total : ℚ) ≠ 0 := by
      have : 0 < total := by omega
      exact_mod_cast this.ne'
    field_simp
    ring

lemma specVar_nonneg (hist : ℕ → ℕ) (total sum t : ℕ) :
    0 ≤ specVar hist total sum t := by
  unfold specVar
  dsimp only
  split
  · exact le_refl 0
  · exact mul_nonneg (mul_nonneg (div_nonneg (Nat.cast_nonneg _) (Nat.cast_nonneg _))
      (div_nonneg (Nat.cast_nonneg _) (Nat.cast_nonneg _))) (mul_self_nonneg _)

lemma foldr_max_zero (l : List ℚ) (h : ∀ a ∈ l, a = 0) : l.foldr max 0 = 0 := by
  induction l with
  | nil => rfl
  | cons b t ih =>
    rw [List.foldr_cons, h b (by simp), ih (fun a ha => h a (by simp [ha]))]
    simp

/-- C8 (amended): whenever some split in [0, 256) attains a strictly positive
between-class variance, the Otsu threshold is the first (lowest) t maximizing
it: no split beats it and every lower t is strictly worse.  When every split
has zero variance — as for a constant or empty image, where one class is
always empty — the loop never updates its running maximum and the fallback
initial value 127 is returned instead of the lowest maximizing t.  The last
conjunct ties the `QRImageData` constructor to this computation. -/
theorem otsu_threshold_spec (gs : List ℕ) :
    (let hist : ℕ → ℕ := fun v => gs.count v
     let total := gs.length
     let sum := histPrefixS hist 256
     ((∃ t, t < 256 ∧ 0 < specVar hist total sum t) →
        computeOtsuThreshold gs < 256 ∧
        (∀ u, u < 256 → specVar hist total sum u
            ≤ specVar hist total sum (computeOtsuThreshold gs)) ∧
        (∀ j, j < computeOtsuThreshold gs →
            specVar hist total sum j
              < specVar hist total sum (computeOtsuThreshold gs))) ∧
     ((∀ t, t < 256 → specVar hist total sum t = 0) →
        computeOtsuThreshold gs = 127)) ∧
    (∀ w h data, (mkQRImageData w h data).threshold
        = ((computeOtsuThreshold ((mkQRImageData w h data).grayscale)) : ℤ)) := by
  refine ⟨?_, fun w h data => rfl⟩
  dsimp only
  have hbound : ∀ n, histPrefixW (fun v => gs.count v) n ≤ gs.length :=
    histPrefixW_le_length gs
  have hmain := otsuGo_spec (fun v => gs.count v) gs.length
    (histPrefixS (fun v => gs.count v) 256) hbound 256 0 0 0 0 127
    (by omega) rfl rfl rfl (fun _ => rfl)
    (fun h => absurd h (lt_irrefl 0))
  have hco : otsuGo (fun v => gs.count v) gs.length
      (histPrefixS (fun v => gs.count v) 256) 256 0 0 0 0 127
      = computeOtsuThreshold gs := rfl
  rw [hco] at hmain
  constructor
  · rintro ⟨t, ht, hpos⟩
    have htotal_pos : 0 < gs.length := by
      by_contra hle
      push_neg at hle
      have h0 : histPrefixW (fun v => gs.count v) (t + 1) = 0 := by
        have := hbound (t + 1)
        omega
      have hzero : specVar (fun v => gs.count v) gs.length
          (histPrefixS (fun v => gs.count v) 256) t = 0 := by
        unfold specVar
        dsimp only
        rw [if_pos (Or.inl h0)]
      rw [hzero] at hpos
      exact lt_irrefl 0 hpos
    have hT2 : (0 : ℚ) < (gs.length : ℚ) ^ 2 := by positivity
    have hcodePos : 0 < codeVar (fun v => gs.count v) gs.length
        (histPrefixS (fun v => gs.count v) 256) t := by
      rw [codeVar_eq_sq_specVar _ _ _ _ (hbound (t + 1))]
      exact mul_pos hT2 hpos
    have hrmPos : 0 < runMax (fun v => gs.count v) gs.length
        (histPrefixS (fun v => gs.count v) 256) 256 :=
      lt_of_lt_of_le hcodePos (codeVar_le_runMax _ _ _ t 256 ht)
    obtain ⟨hlt, heq, hmax⟩ := hmain.2 hrmPos
    refine ⟨hlt, ?_, ?_⟩
    · intro u hu
      have h1 : codeVar (fun v => gs.count v) gs.length
            (histPrefixS (fun v => gs.count v) 256) u
          ≤ codeVar (fun v => gs.count v) gs.length
            (histPrefixS (fun v => gs.count v) 256) (computeOtsuThreshold gs) := by
        rw [heq]
        exact codeVar_le_runMax _ _ _ u 256 hu
      rw [codeVar_eq_sq_specVar _ _ _ _ (hbound _),
        codeVar_eq_sq_specVar _ _ _ _ (hbound _)] at h1
      exact le_of_mul_le_mul_left h1 hT2
    · intro j hj
      have h1 : codeVar (fun v => gs.count v) gs.length
            (histPrefixS (fun v => gs.count v) 256) j
          < codeVar (fun v => gs.count v) gs.length
            (histPrefixS (fun v => gs.count v) 256) (computeOtsuThreshold gs) := by
        rw [heq]
        exact hmax j hj
      rw [codeVar_eq_sq_specVar _ _ _ _ (hbound _),
        codeVar_eq_sq_specVar _ _ _ _ (hbound _)] at h1
      exact lt_of_mul_lt_mul_left h1 (le_of_lt hT2)
  · intro hz
    have hcv : ∀ j, j < 256 → codeVar (fun v => gs.count v) gs.length
        (histPrefixS (fun v => gs.count v) 256) j = 0 := by
      intro j hj
      rw [codeVar_eq_sq_specVar _ _ _ _ (hbound _), hz j hj]
      ring
    have hrm0 : runMax (fun v => gs.count v) gs.length
        (histPrefixS (fun v => gs.count v) 256) 256 = 0 := by
      unfold runMax
      apply foldr_max_zero
      intro a ha
      obtain ⟨j, hj, rfl⟩ := List.mem_map.mp ha
      exact hcv j (List.mem_range.mp hj)
    exact hmain.1 hrm0

/-- C8 (counterexample): a 1 × 1 all-black pixel buffer has a constant
luminance histogram, every split has (degenerate) variance 0, so the first
maximizing threshold in [0, 255] is t = 0; the code nevertheless returns the
initial value 127, not the first (lowest) maximizing t. -/
theorem otsu_counterexample :
    (mkQRImageData 1 1 [0, 0, 0, 255]).threshold = 127 ∧
    specVar (fun v => (mkQRImageData 1 1 [0, 0, 0, 255]).grayscale.count v)
        (mkQRImageData 1 1 [0, 0, 0, 255]).grayscale.length
        (histPrefixS
          (fun v => (mkQRImageData 1 1 [0, 0, 0, 255]).grayscale.count v) 256) 0
      = specVar (fun v => (mkQRImageData 1 1 [0, 0, 0, 255]).grayscale.count v)
          (mkQRImageData 1 1 [0, 0, 0, 255]).grayscale.length
          (histPrefixS
            (fun v => (mkQRImageData 1 1 [0, 0, 0, 255]).grayscale.count v) 256) 127 ∧
    (0 : ℕ) < 127 := by
  have hlum : luminance 0 0 0 = 0 := by
    unfold luminance roundJS
    norm_num
  have hg : (mkQRImageData 1 1 [0, 0, 0, 255]).grayscale = [0] := by
    show (List.range (1 * 1)).map _ = [0]
    simp [hlum, List.range_succ]
  have hS : ∀ u : ℕ, specVar (fun v => ([0] : List ℕ).count v) ([0] : List ℕ).length
      (histPrefixS (fun v => ([0] : List ℕ).count v) 256) u = 0 := by
    intro u
    have hW : histPrefixW (fun v => ([0] : List ℕ).count v) (u + 1)
        = ([0] : List ℕ).length := by
      rw [histPrefixW_count]
      simp [List.countP_cons]
    unfold specVar
    dsimp only
    rw [if_pos (Or.inr (by omega))]
  refine ⟨?_, ?_, by omega⟩
  · have hthr : (mkQRImageData 1 1 [0, 0, 0, 255]).threshold
        = ((computeOtsuThreshold ((mkQRImageData 1 1 [0, 0, 0, 255]).grayscale)) : ℤ) :=
      rfl
    rw [hthr, hg]
    decide
  · rw [hg, hS 0, hS 127]

/-- Witness for the amended C8 on a two-pixel histogram with luminances 0 and
255: the split after bin 0 has positive variance, and the computed threshold
attains a variance at least as large. -/
theorem otsu_threshold_spec_witness :
    specVar (fun v => ([0, 255] : List ℕ).count v) ([0, 255] : List ℕ).length
        (histPrefixS (fun v => ([0, 255] : List ℕ).count v) 256) 0
      ≤ specVar (fun v => ([0, 255] : List ℕ).count v) ([0, 255] : List ℕ).length
          (histPrefixS (fun v => ([0, 255] : List ℕ).count v) 256)
          (computeOtsuThreshold [0, 255]) := by
  have hW : histPrefixW (fun v => ([0, 255] : List ℕ).count v) 1 = 1 := by decide
  have hS1 : histPrefixS (fun v => ([0, 255] : List ℕ).count v) 1 = 0 := by decide
  have hsum : histPrefixS (fun v => ([0, 255] : List ℕ).count v) 256 = 255 := by decide
  have hpos : 0 < specVar (fun v => ([0, 255] : List ℕ).count v)
      ([0, 255] : List ℕ).length
      (histPrefixS (fun v => ([0, 255] : List ℕ).count v) 256) 0 := by
    unfold specVar
    dsimp only
    rw [hW, hS1, hsum, show ([0, 255] : List ℕ).length = 2 from rfl,
      if_neg (by omega)]
    norm_num
  exact ((otsu_threshold_spec [0, 255]).1.1 ⟨0, by omega, hpos⟩).2.1 0 (by omega)

/-- Witness for C7: three concrete patterns sample successfully. -/
theorem sample_pattern_guard_witness :
    Sampler.sample (fun q => q) ⟨1, 1, [0], 127⟩
        [⟨⟨0, 0⟩, 1⟩, ⟨⟨0, 0⟩, 1⟩, ⟨⟨0, 0⟩, 1⟩]
      = Except.ok (sampleResult (fun q => q) ⟨1, 1, [0], 127⟩
          [⟨⟨0, 0⟩, 1⟩, ⟨⟨0, 0⟩, 1⟩, ⟨⟨0, 0⟩, 1⟩]) :=
  (sample_pattern_guard (fun q => q) ⟨1, 1, [0], 127⟩
      [⟨⟨0, 0⟩, 1⟩, ⟨⟨0, 0⟩, 1⟩, ⟨⟨0, 0⟩, 1⟩]).2 (by decide)
